import Mathlib

/-!
Verification of the GoDeezer/lib streaming decryption core and of the API
client's error paths, as a shallow embedding in Lean 4.

The decryption core (key derivation, segment classification, the chained
block-cipher engine and the streaming adapter) is not present in the given
sources — `client.go` only calls `NewDecryptingReader` — so those components
are modelled from the specification.  The `apiDo` and `apiDoJSON` functions
are embedded directly from `client.go`.

Bytes are modelled as natural numbers; Go slices as `List Nat`; fallible Go
calls as functions of the results of their effectful steps.
-/

namespace GoDeezer

/-- Modelled from the spec: the compile-time constants of the encoding scheme
(segment size, cipher block size, decrypt-eligible period and residue, fixed
initialization vector).  The `DecryptingReader` core is missing from the
sources, so the scheme is taken from the specification (§4, §6). -/
structure Config where
  segmentSize : Nat
  blockSize : Nat
  period : Nat
  residue : Nat
  iv : List Nat
deriving DecidableEq

/-- Positional XOR of two byte lists (truncating to the shorter). -/
def zipXor (a b : List Nat) : List Nat := List.zipWith Nat.xor a b

/-- Modelled from the spec: KeyDerivation (§4.1) — a digest of the identifier
combined by positional XOR with a fixed compiled-in secret of matching
length. -/
def deriveKey (digest : String → List Nat) (secret : List Nat) (ident : String) : List Nat :=
  zipXor (digest ident) secret

/-- Modelled from the spec: chained-mode (CBC-style) decryption of a list of
ciphertext blocks with block decryption `D`, starting from the fixed
initialization vector (§4.3). -/
def cbcDecrypt (D : List Nat → List Nat) (iv : List Nat) : List (List Nat) → List (List Nat)
  | [] => []
  | c :: rest => zipXor (D c) iv :: cbcDecrypt D c rest

/-- Reference encoder: chained-mode (CBC-style) encryption, the test-fixture
reference encoder named by the spec's round-trip property (§8). -/
def cbcEncrypt (E : List Nat → List Nat) (iv : List Nat) : List (List Nat) → List (List Nat)
  | [] => []
  | p :: rest => E (zipXor p iv) :: cbcEncrypt E (E (zipXor p iv)) rest

/-- Split a byte list into consecutive chunks of `n` bytes (the last chunk may
be shorter); `fuel` bounds the recursion depth. -/
def chunksOfF (n : Nat) : Nat → List Nat → List (List Nat)
  | _, [] => []
  | 0, _ :: _ => []
  | fuel + 1, a :: t => ((a :: t).take n) :: chunksOfF n fuel ((a :: t).drop n)

/-- Split a byte list into consecutive chunks of `n` bytes; the last chunk may
be shorter. -/
def chunksOf (n : Nat) (l : List Nat) : List (List Nat) := chunksOfF n l.length l

/-- Modelled from the spec: BlockCipherEngine.DecryptSegment (§4.3) — a fresh
chained decryption per segment, restarting from the fixed IV. -/
def decryptSegment (cfg : Config) (D : List Nat → List Nat) (seg : List Nat) : List Nat :=
  (cbcDecrypt D cfg.iv (chunksOf cfg.blockSize seg)).flatten

/-- Reference encoder for one segment, mirroring `decryptSegment`. -/
def encryptSegment (cfg : Config) (E : List Nat → List Nat) (seg : List Nat) : List Nat :=
  (cbcEncrypt E cfg.iv (chunksOf cfg.blockSize seg)).flatten

/-- Modelled from the spec: SegmentFramer.Classify routed into its action
(§4.2) — segment `i` is decrypted iff `i` hits the periodic residue and the
segment's length is an exact multiple of the block size; otherwise it is
passed through unchanged. -/
def processSegment (cfg : Config) (D : List Nat → List Nat) (i : Nat) (seg : List Nat) : List Nat :=
  if i % cfg.period = cfg.residue ∧ seg.length % cfg.blockSize = 0
  then decryptSegment cfg D seg else seg

/-- Reference encoder's per-segment action, mirroring `processSegment`. -/
def encSegmentAt (cfg : Config) (E : List Nat → List Nat) (i : Nat) (seg : List Nat) : List Nat :=
  if i % cfg.period = cfg.residue ∧ seg.length % cfg.blockSize = 0
  then encryptSegment cfg E seg else seg

/-- Whole-stream decryption of the bytes `ct`, whose first segment has index
`i`: each segment is decrypted or passed through per `processSegment`. -/
def decryptFrom (cfg : Config) (D : List Nat → List Nat) (i : Nat) (ct : List Nat) : List Nat :=
  (((chunksOf cfg.segmentSize ct).enumFrom i).map fun p => processSegment cfg D p.1 p.2).flatten

/-- Whole-stream decryption of a ciphertext (segment indices from 0). -/
def decryptStream (cfg : Config) (D : List Nat → List Nat) (ct : List Nat) : List Nat :=
  decryptFrom cfg D 0 ct

/-- Reference encoder over a whole stream, starting at segment index `i`. -/
def encryptFrom (cfg : Config) (E : List Nat → List Nat) (i : Nat) (pt : List Nat) : List Nat :=
  (((chunksOf cfg.segmentSize pt).enumFrom i).map fun p => encSegmentAt cfg E p.1 p.2).flatten

/-- Reference encoder over a whole plaintext (segment indices from 0). -/
def encryptStream (cfg : Config) (E : List Nat → List Nat) (pt : List Nat) : List Nat :=
  encryptFrom cfg E 0 pt

/-- Modelled from the spec: the Session / StreamAdapter state (§3, §4.4) —
the underlying source's remaining bytes, the condition the source reports
once those bytes are gone (`none` = clean end-of-data, `some e` = read
error), the segment cursor, the carry-over buffer, and the closed flag. -/
structure Session where
  srcData : List Nat
  srcErr : Option String
  segIndex : Nat
  carry : List Nat
  closed : Bool
deriving DecidableEq

/-- A fresh Session over an underlying source. -/
def newSession (ct : List Nat) (e : Option String) : Session :=
  { srcData := ct, srcErr := e, segIndex := 0, carry := [], closed := false }

/-- Modelled from the spec: explicit caller-initiated close (§4.4). -/
def close (s : Session) : Session := { s with closed := true }

/-- One pull: take the next segment's worth of bytes from the source, route
it through classification/decryption, and append the result to the carry-over
buffer, advancing the segment cursor. -/
def consume (cfg : Config) (D : List Nat → List Nat) (s : Session) : Session :=
  { s with
    srcData := s.srcData.drop cfg.segmentSize
    segIndex := s.segIndex + 1
    carry := s.carry ++ processSegment cfg D s.segIndex (s.srcData.take cfg.segmentSize) }

/-- Result of filling the carry-over buffer: either it was filled (or the
source was exhausted first), or the source reported a read error. -/
inductive FillRes where
  | filled (s : Session)
  | srcError (e : String) (s : Session)
deriving DecidableEq

/-- Fuelled worker for `fill`; the fuel bounds the number of pulls. -/
def fillF (cfg : Config) (D : List Nat → List Nat) (n : Nat) : Nat → Session → FillRes
  | fuel, s =>
    if n ≤ s.carry.length then .filled s
    else
      match s.srcData, fuel with
      | [], _ =>
        match s.srcErr with
        | some e => .srcError e (close s)
        | none => .filled s
      | _ :: _, 0 => .filled s
      | _ :: _, fuel' + 1 =>
        have : fuel' + 1 = fuel' + 1 := rfl
        fillF cfg D n fuel' (consume cfg D s)

/-- Modelled from the spec: the adapter's internal loop (§4.4) — pull one
segment at a time from the source, classify and decrypt or pass through,
until `n` bytes are carried over or the source has no more bytes; a source
read error is propagated and closes the Session. -/
def fill (cfg : Config) (D : List Nat → List Nat) (n : Nat) (s : Session) : FillRes :=
  fillF cfg D n s.srcData.length s

/-- Modelled from the spec's error taxonomy (§7): reading a closed Session is
`useAfterClose`, distinct from a propagated source read error. -/
inductive ReadErr where
  | useAfterClose
  | sourceErr (e : String)
deriving DecidableEq

/-- Outcome of one `Read(n)` call: bytes delivered, clean end-of-stream, or
an error; each carries the Session state afterwards. -/
inductive ReadOutcome where
  | ok (bytes : List Nat) (s : Session)
  | eofClean (s : Session)
  | err (e : ReadErr) (s : Session)
deriving DecidableEq

/-- Modelled from the spec: StreamAdapter.Read(n) (§4.4) — fails on a closed
Session; otherwise drains the carry-over buffer, pulling further segments as
needed, and delivers up to `n` plaintext bytes; once the source is exhausted
and the carry-over buffer empty it reports clean end-of-stream. -/
def read (cfg : Config) (D : List Nat → List Nat) (n : Nat) (s : Session) : ReadOutcome :=
  if s.closed then .err .useAfterClose s
  else
    match fill cfg D n s with
    | .srcError e s₂ => .err (.sourceErr e) s₂
    | .filled s₂ =>
      if s₂.carry = [] ∧ s₂.srcData = [] then .eofClean s₂
      else .ok (s₂.carry.take n) { s₂ with carry := s₂.carry.drop n }

/-- The bytes delivered by one `Read(n)` call together with the Session state
afterwards (error and end-of-stream outcomes deliver no bytes). -/
def readD (cfg : Config) (D : List Nat → List Nat) (n : Nat) (s : Session) : List Nat × Session :=
  match read cfg D n s with
  | .ok bs s₂ => (bs, s₂)
  | .eofClean s₂ => ([], s₂)
  | .err _ s₂ => ([], s₂)

/-- The concatenation of the bytes delivered by a sequence of `Read` calls
with the given sizes. -/
def readSeq (cfg : Config) (D : List Nat → List Nat) : List Nat → Session → List Nat
  | [], _ => []
  | n :: rest, s => (readD cfg D n s).1 ++ readSeq cfg D rest (readD cfg D n s).2

/-- The plaintext bytes a Session still owes its caller: the carry-over
buffer followed by the decryption of the source's remaining segments. -/
def pending (cfg : Config) (D : List Nat → List Nat) (s : Session) : List Nat :=
  s.carry ++ decryptFrom cfg D s.segIndex s.srcData

/-! ## The API client (`client.go`) -/

/-- Error values of the Go client: `ErrUnexpectedStatusCode` (client.go:14)
carries the HTTP status code; any other error is identified by its message. -/
inductive goError where
  | unexpectedStatusCode (code : Int)
  | other (msg : String)
deriving DecidableEq

/-- The `Error()` message of a Go error value (client.go:16-18). -/
def goError.message : goError → String
  | .unexpectedStatusCode c => "Deezer returned non-2XX code " ++ toString c
  | .other m => m

/-- The part of `*http.Response` the client inspects. -/
structure httpResponse where
  statusCode : Int
deriving DecidableEq

/-- Result of running a Go function: it returns a value, or the call crashes
(for example a nil-pointer dereference panic). -/
inductive goOutcome (α : Type) where
  | crashes
  | returns (v : α)
deriving DecidableEq

/-- Whether the first character list is an initial run of the second. -/
def startsWithChars : List Char → List Char → Bool
  | [], _ => true
  | _ :: _, [] => false
  | a :: as, b :: bs => a == b && startsWithChars as bs

/-- Whether `pat` occurs contiguously inside the second character list. -/
def hasSubstr (pat : List Char) : List Char → Bool
  | [] => startsWithChars pat []
  | c :: rest => startsWithChars pat (c :: rest) || hasSubstr pat rest

/-- Go's `strings.Contains(s, pat)`. -/
def stringsContains (s pat : String) : Bool := hasSubstr pat.toList s.toList

/-- The substring tested by the unmarshal-error exemption in `apiDoJSON`
(client.go:177-178). -/
def phpArrayErrPat : String := "json: cannot unmarshal array into Go struct field"

/-- `apiDo` (client.go:127-154) as a function of the results of its effectful
steps: `http.NewRequest`, `csrfToken` (consulted only when the method is not
`getUserData`), and `c.do`.  The Go pair `(r, e)` returned by `c.do` at line
149 is the `doRes` argument; line 150 then evaluates `r.StatusCode`, which is
a nil-pointer dereference (a crash) whenever `r` is nil. -/
def apiDo (newReqErr : Option goError) (isGetUserData : Bool)
    (csrfRes : Except goError String)
    (doRes : Option httpResponse × Option goError) :
    goOutcome (Option httpResponse × Option goError) :=
  match newReqErr with
  | some e => .returns (none, some e)
  | none =>
    match (if isGetUserData then Except.ok "null" else csrfRes) with
    | .error e => .returns (none, some e)
    | .ok _ =>
      match doRes.1 with
      | none => .crashes
      | some r =>
        if r.statusCode < 200 ∨ r.statusCode > 299 then
          .returns (none, some (.unexpectedStatusCode r.statusCode))
        else .returns (doRes.1, doRes.2)

/-- `apiDoJSON` (client.go:156-182) as a function of the results of its
effectful steps: `json.Marshal` of the request body, the `apiDo` call, the
`Decode` of the response envelope, and the final `json.Unmarshal` of the
`results` field.  Lines 173-180: an unmarshal error whose message contains
`phpArrayErrPat` is deliberately dropped and the call returns nil. -/
def apiDoJSON (marshalErr : Option goError)
    (apiDoRes : goOutcome (Option httpResponse × Option goError))
    (decodeErr : Option goError) (unmarshalErr : Option goError) :
    goOutcome (Option goError) :=
  match marshalErr with
  | some e => .returns (some e)
  | none =>
    match apiDoRes with
    | .crashes => .crashes
    | .returns (_, some e) => .returns (some e)
    | .returns (_, none) =>
      match decodeErr with
      | some e => .returns (some e)
      | none =>
        match unmarshalErr with
        | none => .returns none
        | some e =>
          if stringsContains e.message phpArrayErrPat then .returns none
          else .returns (some e)

/-- A shared concrete scheme used to evaluate the theorems below on concrete
inputs: 2-byte segments, 1-byte cipher blocks, every third segment starting
at index 0 decrypted, IV of one byte. -/
def cfgW : Config := ⟨2, 1, 3, 0, [0]⟩

/-- A second concrete scheme with 4-byte segments and 2-byte cipher blocks,
used to evaluate short-final-segment behavior on concrete inputs. -/
def cfgW2 : Config := ⟨4, 2, 3, 0, [1, 2]⟩

/-! ## Chunking lemmas -/

theorem chunksOfF_congr (n : Nat) (hn : 0 < n) :
    ∀ f₁ f₂ (l : List Nat), l.length ≤ f₁ → l.length ≤ f₂ →
      chunksOfF n f₁ l = chunksOfF n f₂ l := by
  intro f₁
  induction f₁ with
  | zero =>
    intro f₂ l h₁ _
    have hl : l = [] := List.eq_nil_of_length_eq_zero (Nat.le_zero.mp h₁)
    subst hl
    cases f₂ <;> rfl
  | succ f ih =>
    intro f₂ l h₁ h₂
    cases l with
    | nil => cases f₂ <;> rfl
    | cons a t =>
      cases f₂ with
      | zero => simp at h₂
      | succ g =>
        simp only [chunksOfF]
        congr 1
        have hd : ((a :: t).drop n).length ≤ t.length := by
          simp only [List.length_drop, List.length_cons]
          omega
        exact ih g _ (le_trans hd (Nat.lt_succ_iff.mp (Nat.lt_of_lt_of_le (Nat.lt_succ_self _) h₁)))
          (le_trans hd (Nat.lt_succ_iff.mp (Nat.lt_of_lt_of_le (Nat.lt_succ_self _) h₂)))

theorem chunksOf_nil (n : Nat) : chunksOf n [] = [] := rfl

theorem chunksOf_cons (n : Nat) (hn : 0 < n) (l : List Nat) (hl : l ≠ []) :
    chunksOf n l = l.take n :: chunksOf n (l.drop n) := by
  cases l with
  | nil => exact absurd rfl hl
  | cons a t =>
    show chunksOfF n (t.length + 1) (a :: t) = _
    simp only [chunksOfF]
    congr 1
    apply chunksOfF_congr n hn
    · simp only [List.length_drop, List.length_cons]; omega
    · exact le_refl _

theorem chunksOf_flatten (n : Nat) (hn : 0 < n) (l : List Nat) :
    (chunksOf n l).flatten = l := by
  have key : ∀ m (l : List Nat), l.length ≤ m → (chunksOf n l).flatten = l := by
    intro m
    induction m with
    | zero =>
      intro l h
      have hl : l = [] := List.eq_nil_of_length_eq_zero (Nat.le_zero.mp h)
      subst hl; rfl
    | succ m ih =>
      intro l h
      by_cases hl : l = []
      · subst hl; rfl
      · rw [chunksOf_cons n hn l hl, List.flatten_cons,
          ih (l.drop n) (by simp only [List.length_drop]; omega)]
        exact List.take_append_drop n l
  exact key l.length l (le_refl _)

theorem chunksOf_all_full (n : Nat) (hn : 0 < n) (l : List Nat) (hdvd : n ∣ l.length) :
    ∀ c ∈ chunksOf n l, c.length = n := by
  have key : ∀ m (l : List Nat), l.length ≤ m → n ∣ l.length →
      ∀ c ∈ chunksOf n l, c.length = n := by
    intro m
    induction m with
    | zero =>
      intro l h _ c hc
      have hl : l = [] := List.eq_nil_of_length_eq_zero (Nat.le_zero.mp h)
      subst hl; simp [chunksOf_nil] at hc
    | succ m ih =>
      intro l h hdvd c hc
      by_cases hl : l = []
      · subst hl; simp [chunksOf_nil] at hc
      · have hlen : 0 < l.length := List.length_pos.mpr hl
        have hge : n ≤ l.length := Nat.le_of_dvd hlen hdvd
        rw [chunksOf_cons n hn l hl, List.mem_cons] at hc
        rcases hc with hc | hc
        · rw [hc, List.length_take]
          exact min_eq_left hge
        · exact ih (l.drop n) (by simp only [List.length_drop]; omega)
            (by simpa only [List.length_drop] using Nat.dvd_sub' hdvd (dvd_refl n)) c hc
  exact key l.length l (le_refl _) hdvd

/-! ## Stream unfolding lemmas -/

theorem decryptFrom_nil (cfg : Config) (D : List Nat → List Nat) (i : Nat) :
    decryptFrom cfg D i [] = [] := rfl

theorem decryptFrom_cons (cfg : Config) (D : List Nat → List Nat)
    (hseg : 0 < cfg.segmentSize) (i : Nat) (ct : List Nat) (h : ct ≠ []) :
    decryptFrom cfg D i ct
      = processSegment cfg D i (ct.take cfg.segmentSize)
        ++ decryptFrom cfg D (i + 1) (ct.drop cfg.segmentSize) := by
  unfold decryptFrom
  rw [chunksOf_cons _ hseg ct h, List.enumFrom_cons, List.map_cons, List.flatten_cons]

theorem encryptFrom_nil (cfg : Config) (E : List Nat → List Nat) (i : Nat) :
    encryptFrom cfg E i [] = [] := rfl

theorem encryptFrom_cons (cfg : Config) (E : List Nat → List Nat)
    (hseg : 0 < cfg.segmentSize) (i : Nat) (pt : List Nat) (h : pt ≠ []) :
    encryptFrom cfg E i pt
      = encSegmentAt cfg E i (pt.take cfg.segmentSize)
        ++ encryptFrom cfg E (i + 1) (pt.drop cfg.segmentSize) := by
  unfold encryptFrom
  rw [chunksOf_cons _ hseg pt h, List.enumFrom_cons, List.map_cons, List.flatten_cons]

/-! ## XOR and chained-cipher lemmas -/

theorem zipXor_length (a b : List Nat) : (zipXor a b).length = min a.length b.length := by
  simp [zipXor]

theorem zipXor_cancel : ∀ (p iv : List Nat), p.length ≤ iv.length →
    zipXor (zipXor p iv) iv = p := by
  intro p
  induction p with
  | nil => intro iv _; rfl
  | cons x xs ih =>
    intro iv h
    cases iv with
    | nil => simp at h
    | cons y ys =>
      simp only [zipXor, List.zipWith_cons_cons] at *
      rw [show Nat.xor (Nat.xor x y) y = x from Nat.xor_cancel_right y x]
      exact congrArg _ (ih ys (by simpa using h))

theorem cbcDecrypt_count (D : List Nat → List Nat) :
    ∀ (cs : List (List Nat)) (iv : List Nat), (cbcDecrypt D iv cs).length = cs.length := by
  intro cs
  induction cs with
  | nil => intro iv; rfl
  | cons c rest ih => intro iv; simp [cbcDecrypt, ih]

theorem cbcDecrypt_blocks_len (D : List Nat → List Nat) (B : Nat)
    (hD : ∀ b, (D b).length = b.length) :
    ∀ (cs : List (List Nat)) (iv : List Nat), iv.length = B →
      (∀ c ∈ cs, c.length = B) → ∀ p ∈ cbcDecrypt D iv cs, p.length = B := by
  intro cs
  induction cs with
  | nil => intro iv _ _ p hp; simp [cbcDecrypt] at hp
  | cons c rest ih =>
    intro iv hiv hcs p hp
    simp only [cbcDecrypt, List.mem_cons] at hp
    rcases hp with hp | hp
    · rw [hp, zipXor_length, hD, hcs c (List.mem_cons_self c rest), hiv, min_self]
    · exact ih c (hcs c (List.mem_cons_self c rest))
        (fun x hx => hcs x (List.mem_cons_of_mem c hx)) p hp

theorem cbcEncrypt_count (E : List Nat → List Nat) :
    ∀ (ps : List (List Nat)) (iv : List Nat), (cbcEncrypt E iv ps).length = ps.length := by
  intro ps
  induction ps with
  | nil => intro iv; rfl
  | cons p rest ih => intro iv; simp [cbcEncrypt, ih]

theorem cbcEncrypt_blocks_len (E : List Nat → List Nat) (B : Nat)
    (hE : ∀ b, b.length = B → (E b).length = B) :
    ∀ (ps : List (List Nat)) (iv : List Nat), iv.length = B →
      (∀ p ∈ ps, p.length = B) → ∀ c ∈ cbcEncrypt E iv ps, c.length = B := by
  intro ps
  induction ps with
  | nil => intro iv _ _ c hc; simp [cbcEncrypt] at hc
  | cons p rest ih =>
    intro iv hiv hps c hc
    have hpB : p.length = B := hps p (List.mem_cons_self p rest)
    have hxB : (zipXor p iv).length = B := by
      rw [zipXor_length, hpB, hiv, min_self]
    simp only [cbcEncrypt, List.mem_cons] at hc
    rcases hc with hc | hc
    · rw [hc]; exact hE _ hxB
    · exact ih (E (zipXor p iv)) (hE _ hxB)
        (fun x hx => hps x (List.mem_cons_of_mem p hx)) c hc

theorem cbc_roundtrip (E D : List Nat → List Nat) (B : Nat)
    (hE : ∀ b, b.length = B → (E b).length = B)
    (hDE : ∀ b, b.length = B → D (E b) = b) :
    ∀ (ps : List (List Nat)) (iv : List Nat), iv.length = B →
      (∀ p ∈ ps, p.length = B) → cbcDecrypt D iv (cbcEncrypt E iv ps) = ps := by
  intro ps
  induction ps with
  | nil => intro iv _ _; rfl
  | cons p rest ih =>
    intro iv hiv hps
    have hpB : p.length = B := hps p (List.mem_cons_self p rest)
    have hxB : (zipXor p iv).length = B := by
      rw [zipXor_length, hpB, hiv, min_self]
    simp only [cbcEncrypt, cbcDecrypt]
    rw [hDE _ hxB, zipXor_cancel p iv (by omega),
      ih (E (zipXor p iv)) (hE _ hxB) (fun x hx => hps x (List.mem_cons_of_mem p hx))]

theorem flatten_length_all (B : Nat) :
    ∀ (cs : List (List Nat)), (∀ c ∈ cs, c.length = B) →
      cs.flatten.length = cs.length * B := by
  intro cs
  induction cs with
  | nil => intro _; simp
  | cons c rest ih =>
    intro h
    simp only [List.flatten_cons, List.length_append, List.length_cons,
      h c (List.mem_cons_self c rest), ih (fun x hx => h x (List.mem_cons_of_mem c hx))]
    ring

theorem chunksOf_of_flatten (B : Nat) (hB : 0 < B) :
    ∀ (cs : List (List Nat)), (∀ c ∈ cs, c.length = B) →
      chunksOf B cs.flatten = cs := by
  intro cs
  induction cs with
  | nil => intro _; rfl
  | cons c rest ih =>
    intro h
    have hc : c.length = B := h c (List.mem_cons_self c rest)
    have hne : (c :: rest).flatten ≠ [] := by
      apply List.length_pos.mp
      rw [List.flatten_cons, List.length_append, hc]
      omega
    rw [chunksOf_cons B hB _ hne, List.flatten_cons,
      show (c ++ rest.flatten).take B = c by rw [← hc]; exact List.take_left c _,
      show (c ++ rest.flatten).drop B = rest.flatten by rw [← hc]; exact List.drop_left c _,
      ih (fun x hx => h x (List.mem_cons_of_mem c hx))]

/-! ## Segment-level length and round-trip lemmas -/

theorem decryptSegment_length (cfg : Config) (D : List Nat → List Nat)
    (hblk : 0 < cfg.blockSize) (hiv : cfg.iv.length = cfg.blockSize)
    (hD : ∀ b, (D b).length = b.length) (seg : List Nat)
    (hmod : seg.length % cfg.blockSize = 0) :
    (decryptSegment cfg D seg).length = seg.length := by
  have hdvd := Nat.dvd_of_mod_eq_zero hmod
  have hfull := chunksOf_all_full cfg.blockSize hblk seg hdvd
  have hblocks := cbcDecrypt_blocks_len D cfg.blockSize hD (chunksOf cfg.blockSize seg)
    cfg.iv hiv hfull
  unfold decryptSegment
  rw [flatten_length_all cfg.blockSize _ hblocks, cbcDecrypt_count]
  calc (chunksOf cfg.blockSize seg).length * cfg.blockSize
      = (chunksOf cfg.blockSize seg).flatten.length :=
        (flatten_length_all cfg.blockSize _ hfull).symm
    _ = seg.length := by rw [chunksOf_flatten _ hblk]

theorem encryptSegment_length (cfg : Config) (E : List Nat → List Nat)
    (hblk : 0 < cfg.blockSize) (hiv : cfg.iv.length = cfg.blockSize)
    (hE : ∀ b, b.length = cfg.blockSize → (E b).length = cfg.blockSize) (seg : List Nat)
    (hmod : seg.length % cfg.blockSize = 0) :
    (encryptSegment cfg E seg).length = seg.length := by
  have hdvd := Nat.dvd_of_mod_eq_zero hmod
  have hfull := chunksOf_all_full cfg.blockSize hblk seg hdvd
  have hblocks := cbcEncrypt_blocks_len E cfg.blockSize hE (chunksOf cfg.blockSize seg)
    cfg.iv hiv hfull
  unfold encryptSegment
  rw [flatten_length_all cfg.blockSize _ hblocks, cbcEncrypt_count]
  calc (chunksOf cfg.blockSize seg).length * cfg.blockSize
      = (chunksOf cfg.blockSize seg).flatten.length :=
        (flatten_length_all cfg.blockSize _ hfull).symm
    _ = seg.length := by rw [chunksOf_flatten _ hblk]

theorem segment_roundtrip (cfg : Config) (E D : List Nat → List Nat)
    (hblk : 0 < cfg.blockSize) (hiv : cfg.iv.length = cfg.blockSize)
    (hE : ∀ b, b.length = cfg.blockSize → (E b).length = cfg.blockSize)
    (hDE : ∀ b, b.length = cfg.blockSize → D (E b) = b) (seg : List Nat)
    (hmod : seg.length % cfg.blockSize = 0) :
    decryptSegment cfg D (encryptSegment cfg E seg) = seg := by
  have hdvd := Nat.dvd_of_mod_eq_zero hmod
  have hfull := chunksOf_all_full cfg.blockSize hblk seg hdvd
  have hecs := cbcEncrypt_blocks_len E cfg.blockSize hE (chunksOf cfg.blockSize seg)
    cfg.iv hiv hfull
  unfold decryptSegment encryptSegment
  rw [chunksOf_of_flatten cfg.blockSize hblk _ hecs,
    cbc_roundtrip E D cfg.blockSize hE hDE _ cfg.iv hiv hfull,
    chunksOf_flatten _ hblk]

theorem processSegment_length (cfg : Config) (D : List Nat → List Nat)
    (hblk : 0 < cfg.blockSize) (hiv : cfg.iv.length = cfg.blockSize)
    (hD : ∀ b, (D b).length = b.length) (i : Nat) (seg : List Nat) :
    (processSegment cfg D i seg).length = seg.length := by
  unfold processSegment
  split
  · next h => exact decryptSegment_length cfg D hblk hiv hD seg h.2
  · rfl

theorem processSegment_nil (cfg : Config) (D : List Nat → List Nat) (i : Nat) :
    processSegment cfg D i [] = [] := by
  unfold processSegment decryptSegment
  split <;> rfl

theorem encSegmentAt_length (cfg : Config) (E : List Nat → List Nat)
    (hblk : 0 < cfg.blockSize) (hiv : cfg.iv.length = cfg.blockSize)
    (hE : ∀ b, b.length = cfg.blockSize → (E b).length = cfg.blockSize)
    (i : Nat) (seg : List Nat) :
    (encSegmentAt cfg E i seg).length = seg.length := by
  unfold encSegmentAt
  split
  · next h => exact encryptSegment_length cfg E hblk hiv hE seg h.2
  · rfl

theorem decryptFrom_length (cfg : Config) (D : List Nat → List Nat)
    (hseg : 0 < cfg.segmentSize) (hblk : 0 < cfg.blockSize)
    (hiv : cfg.iv.length = cfg.blockSize) (hD : ∀ b, (D b).length = b.length) :
    ∀ (ct : List Nat) (i : Nat), (decryptFrom cfg D i ct).length = ct.length := by
  have key : ∀ m (ct : List Nat) (i : Nat), ct.length ≤ m →
      (decryptFrom cfg D i ct).length = ct.length := by
    intro m
    induction m with
    | zero =>
      intro ct i h
      have hl : ct = [] := List.eq_nil_of_length_eq_zero (Nat.le_zero.mp h)
      subst hl; rfl
    | succ m ih =>
      intro ct i h
      by_cases hl : ct = []
      · subst hl; rfl
      · rw [decryptFrom_cons cfg D hseg i ct hl, List.length_append,
          processSegment_length cfg D hblk hiv hD,
          ih (ct.drop cfg.segmentSize) (i + 1) (by simp only [List.length_drop]; omega),
          List.length_take, List.length_drop]
        omega
  exact fun ct i => key ct.length ct i (le_refl _)

theorem decryptStream_length (cfg : Config) (D : List Nat → List Nat)
    (hseg : 0 < cfg.segmentSize) (hblk : 0 < cfg.blockSize)
    (hiv : cfg.iv.length = cfg.blockSize) (hD : ∀ b, (D b).length = b.length)
    (ct : List Nat) : (decryptStream cfg D ct).length = ct.length :=
  decryptFrom_length cfg D hseg hblk hiv hD ct 0

/-! ## Adapter (Session) lemmas -/

theorem fillF_congr (cfg : Config) (D : List Nat → List Nat) (n : Nat)
    (hseg : 0 < cfg.segmentSize) :
    ∀ f₁ f₂ (s : Session), s.srcData.length ≤ f₁ → s.srcData.length ≤ f₂ →
      fillF cfg D n f₁ s = fillF cfg D n f₂ s := by
  intro f₁
  induction f₁ with
  | zero =>
    intro f₂ s h₁ _
    have hd : s.srcData = [] := List.eq_nil_of_length_eq_zero (Nat.le_zero.mp h₁)
    conv_lhs => rw [fillF.eq_def]
    conv_rhs => rw [fillF.eq_def]
    simp only [hd]
  | succ f ih =>
    intro f₂ s h₁ h₂
    conv_lhs => rw [fillF.eq_def]
    conv_rhs => rw [fillF.eq_def]
    by_cases hc : n ≤ s.carry.length
    · simp only [if_pos hc]
    · simp only [if_neg hc]
      cases hs : s.srcData with
      | nil => simp only [hs]
      | cons a t =>
        cases f₂ with
        | zero => rw [hs] at h₂; simp at h₂
        | succ g =>
          simp only [hs]
          apply ih g
          · simp only [consume, List.length_drop]
            rw [hs] at h₁
            simp only [List.length_cons] at h₁
            rw [hs]
            simp only [List.length_cons]
            omega
          · simp only [consume, List.length_drop]
            rw [hs] at h₂
            simp only [List.length_cons] at h₂
            rw [hs]
            simp only [List.length_cons]
            omega

theorem fill_eq (cfg : Config) (D : List Nat → List Nat) (n : Nat) (s : Session)
    (hseg : 0 < cfg.segmentSize) :
    fill cfg D n s =
      if n ≤ s.carry.length then .filled s
      else
        match s.srcData with
        | [] =>
          match s.srcErr with
          | some e => .srcError e (close s)
          | none => .filled s
        | _ :: _ => fill cfg D n (consume cfg D s) := by
  unfold fill
  conv_lhs => rw [fillF.eq_def]
  by_cases hc : n ≤ s.carry.length
  · simp only [if_pos hc]
  · simp only [if_neg hc]
    cases hs : s.srcData with
    | nil => simp only [hs]
    | cons a t =>
      simp only [hs, List.length_cons]
      apply fillF_congr cfg D n hseg
      · simp only [consume, List.length_drop]
        rw [hs]
        simp only [List.length_cons]
        omega
      · exact le_refl _

theorem pending_consume (cfg : Config) (D : List Nat → List Nat)
    (hseg : 0 < cfg.segmentSize) (s : Session) (hne : s.srcData ≠ []) :
    pending cfg D (consume cfg D s) = pending cfg D s := by
  unfold pending consume
  simp only
  rw [decryptFrom_cons cfg D hseg s.segIndex s.srcData hne, List.append_assoc]

theorem fill_spec (cfg : Config) (D : List Nat → List Nat) (hseg : 0 < cfg.segmentSize) :
    ∀ (n : Nat) (s : Session), s.srcErr = none →
      ∃ s₂, fill cfg D n s = .filled s₂ ∧ pending cfg D s₂ = pending cfg D s ∧
        (n ≤ s₂.carry.length ∨ s₂.srcData = []) ∧ s₂.closed = s.closed ∧
        s₂.srcErr = none := by
  have key : ∀ (m n : Nat) (s : Session), s.srcData.length ≤ m → s.srcErr = none →
      ∃ s₂, fill cfg D n s = .filled s₂ ∧ pending cfg D s₂ = pending cfg D s ∧
        (n ≤ s₂.carry.length ∨ s₂.srcData = []) ∧ s₂.closed = s.closed ∧
        s₂.srcErr = none := by
    intro m
    induction m with
    | zero =>
      intro n s h he
      have hd : s.srcData = [] := List.eq_nil_of_length_eq_zero (Nat.le_zero.mp h)
      refine ⟨s, ?_, rfl, Or.inr hd, rfl, he⟩
      rw [fill_eq cfg D n s hseg, hd, he]
      split <;> rfl
    | succ m ih =>
      intro n s h he
      by_cases hc : n ≤ s.carry.length
      · refine ⟨s, ?_, rfl, Or.inl hc, rfl, he⟩
        rw [fill_eq cfg D n s hseg, if_pos hc]
      · cases hs : s.srcData with
        | nil =>
          refine ⟨s, ?_, rfl, Or.inr hs, rfl, he⟩
          rw [fill_eq cfg D n s hseg, if_neg hc, hs, he]
        | cons a t =>
          have hne : s.srcData ≠ [] := by rw [hs]; exact List.cons_ne_nil a t
          obtain ⟨s₂, h1, h2, h3, h4, h5⟩ := ih n (consume cfg D s)
            (by simp only [consume, List.length_drop]; rw [hs] at h ⊢
                simp only [List.length_cons] at *; omega)
            (by simpa only [consume] using he)
          refine ⟨s₂, ?_, ?_, h3, h4, h5⟩
          · rw [fill_eq cfg D n s hseg, if_neg hc, hs]
            exact h1
          · rw [h2, pending_consume cfg D hseg s hne]
  exact fun n s he => key s.srcData.length n s (le_refl _) he

theorem pending_newSession (cfg : Config) (D : List Nat → List Nat)
    (ct : List Nat) (e : Option String) :
    pending cfg D (newSession ct e) = decryptStream cfg D ct := by
  unfold pending newSession decryptStream
  simp

theorem readD_spec (cfg : Config) (D : List Nat → List Nat) (hseg : 0 < cfg.segmentSize)
    (n : Nat) (s : Session) (hclosed : s.closed = false) (hsrc : s.srcErr = none) :
    (readD cfg D n s).1 = (pending cfg D s).take n ∧
    pending cfg D (readD cfg D n s).2 = (pending cfg D s).drop n ∧
    (readD cfg D n s).2.closed = false ∧ (readD cfg D n s).2.srcErr = none := by
  obtain ⟨s₂, hfill, hpend, hor, hcl, herr⟩ := fill_spec cfg D hseg n s hsrc
  rw [hclosed] at hcl
  unfold readD read
  rw [hclosed, hfill]
  simp only [Bool.false_eq_true, if_false]
  by_cases he : s₂.carry = [] ∧ s₂.srcData = []
  · have hp₂ : pending cfg D s₂ = [] := by
      unfold pending
      rw [he.1, he.2, decryptFrom_nil]
      rfl
    have hp : pending cfg D s = [] := by rw [← hpend, hp₂]
    rw [if_pos he]
    exact ⟨by rw [hp]; simp, by rw [hp₂, hp]; simp, hcl, herr⟩
  · rw [if_neg he]
    rcases hor with hn | hd
    · refine ⟨?_, ?_, hcl, herr⟩
      · rw [← hpend]
        unfold pending
        rw [List.take_append_of_le_length hn]
      · rw [← hpend]
        unfold pending
        simp only
        rw [List.drop_append_of_le_length hn]
    · have hX : decryptFrom cfg D s₂.segIndex s₂.srcData = [] := by
        rw [hd, decryptFrom_nil]
      refine ⟨?_, ?_, hcl, herr⟩
      · rw [← hpend]
        unfold pending
        rw [hX, List.append_nil]
      · rw [← hpend]
        unfold pending
        simp only [hX, List.append_nil]

theorem readSeq_pending (cfg : Config) (D : List Nat → List Nat)
    (hseg : 0 < cfg.segmentSize) :
    ∀ (sizes : List Nat) (s : Session), s.closed = false → s.srcErr = none →
      readSeq cfg D sizes s = (pending cfg D s).take sizes.sum := by
  intro sizes
  induction sizes with
  | nil => intro s _ _; simp [readSeq]
  | cons n rest ih =>
    intro s hc he
    obtain ⟨h1, h2, h3, h4⟩ := readD_spec cfg D hseg n s hc he
    simp only [readSeq]
    rw [h1, ih _ h3 h4, h2, List.sum_cons, List.take_add]

/-! ## Positional lemmas -/

theorem decryptFrom_segment_at (cfg : Config) (D : List Nat → List Nat)
    (hseg : 0 < cfg.segmentSize) (hblk : 0 < cfg.blockSize)
    (hiv : cfg.iv.length = cfg.blockSize) (hD : ∀ b, (D b).length = b.length) :
    ∀ (i : Nat) (ct : List Nat) (j : Nat),
      ((decryptFrom cfg D j ct).drop (cfg.segmentSize * i)).take cfg.segmentSize
        = processSegment cfg D (j + i) ((ct.drop (cfg.segmentSize * i)).take cfg.segmentSize) := by
  intro i
  induction i with
  | zero =>
    intro ct j
    simp only [Nat.mul_zero, List.drop_zero, Nat.add_zero]
    by_cases hl : ct = []
    · subst hl
      rw [decryptFrom_nil]
      simp [processSegment_nil]
    · rw [decryptFrom_cons cfg D hseg j ct hl]
      have hA : (processSegment cfg D j (ct.take cfg.segmentSize)).length
          = (ct.take cfg.segmentSize).length := processSegment_length cfg D hblk hiv hD _ _
      by_cases hlen : cfg.segmentSize ≤ ct.length
      · have hfull : (ct.take cfg.segmentSize).length = cfg.segmentSize := by
          rw [List.length_take]; omega
        rw [List.take_append_of_le_length (by rw [hA, hfull]),
          List.take_of_length_le (by rw [hA, hfull])]
      · have hdrop : ct.drop cfg.segmentSize = [] := List.drop_eq_nil_of_le (by omega)
        rw [hdrop, decryptFrom_nil, List.append_nil,
          List.take_of_length_le (by rw [hA, List.length_take]; omega)]
  | succ i ih =>
    intro ct j
    by_cases hl : ct = []
    · subst hl
      rw [decryptFrom_nil]
      simp [processSegment_nil]
    · rw [decryptFrom_cons cfg D hseg j ct hl]
      have hA : (processSegment cfg D j (ct.take cfg.segmentSize)).length
          = (ct.take cfg.segmentSize).length := processSegment_length cfg D hblk hiv hD _ _
      by_cases hlen : cfg.segmentSize ≤ ct.length
      · have hAfull : (processSegment cfg D j (ct.take cfg.segmentSize)).length
            = cfg.segmentSize := by rw [hA, List.length_take]; omega
        have hsplit : cfg.segmentSize * (i + 1)
            = (processSegment cfg D j (ct.take cfg.segmentSize)).length
              + cfg.segmentSize * i := by rw [hAfull]; ring
        conv_lhs => rw [hsplit, List.drop_append]
        rw [ih (ct.drop cfg.segmentSize) (j + 1)]
        conv_rhs => rw [show cfg.segmentSize * (i + 1)
          = cfg.segmentSize + cfg.segmentSize * i from by ring, ← List.drop_drop]
        rw [show j + 1 + i = j + (i + 1) from by omega]
      · have hdrop : ct.drop cfg.segmentSize = [] := List.drop_eq_nil_of_le (by omega)
        have hle : cfg.segmentSize ≤ cfg.segmentSize * (i + 1) := by
          rw [Nat.mul_succ]; omega
        rw [hdrop, decryptFrom_nil, List.append_nil,
          List.drop_eq_nil_of_le (by rw [hA, List.length_take]; omega),
          List.drop_eq_nil_of_le (le_trans (by omega) hle)]
        simp [processSegment_nil]

theorem decryptFrom_tail (cfg : Config) (D : List Nat → List Nat)
    (hseg : 0 < cfg.segmentSize) (hblk : 0 < cfg.blockSize)
    (hiv : cfg.iv.length = cfg.blockSize) (hD : ∀ b, (D b).length = b.length) :
    ∀ (k : Nat) (ct : List Nat) (i r : Nat), ct.length = cfg.segmentSize * k + r →
      0 < r → r < cfg.segmentSize → r % cfg.blockSize ≠ 0 →
      (decryptFrom cfg D i ct).drop (cfg.segmentSize * k)
        = ct.drop (cfg.segmentSize * k) := by
  intro k
  induction k with
  | zero =>
    intro ct i r hlen hr1 hr2 hr3
    simp only [Nat.mul_zero, List.drop_zero]
    simp only [Nat.mul_zero, Nat.zero_add] at hlen
    have hne : ct ≠ [] := by
      intro h
      rw [h] at hlen
      simp at hlen
      omega
    rw [decryptFrom_cons cfg D hseg i ct hne,
      List.take_of_length_le (by omega),
      List.drop_eq_nil_of_le (by omega), decryptFrom_nil, List.append_nil]
    unfold processSegment
    rw [if_neg]
    intro hcond
    exact hr3 (by rw [← hlen]; exact hcond.2)
  | succ k ih =>
    intro ct i r hlen hr1 hr2 hr3
    rw [Nat.mul_succ] at hlen
    have hne : ct ≠ [] := by
      intro h
      rw [h] at hlen
      simp at hlen
      omega
    rw [decryptFrom_cons cfg D hseg i ct hne]
    have hA : (processSegment cfg D i (ct.take cfg.segmentSize)).length
        = (ct.take cfg.segmentSize).length := processSegment_length cfg D hblk hiv hD _ _
    have hAfull : (processSegment cfg D i (ct.take cfg.segmentSize)).length
        = cfg.segmentSize := by rw [hA, List.length_take]; omega
    have hsplit : cfg.segmentSize * (k + 1)
        = (processSegment cfg D i (ct.take cfg.segmentSize)).length
          + cfg.segmentSize * k := by rw [hAfull]; ring
    conv_lhs => rw [hsplit, List.drop_append]
    conv_rhs => rw [show cfg.segmentSize * (k + 1)
      = cfg.segmentSize + cfg.segmentSize * k from by ring, ← List.drop_drop]
    exact ih (ct.drop cfg.segmentSize) (i + 1) r
      (by rw [List.length_drop]; omega) hr1 hr2 hr3

/-! ## Claim theorems -/

/-- Claim C1: read-granularity independence — for any ciphertext stream and
any two sequences of read sizes whose sums both reach the plaintext length,
the concatenation of the bytes returned by repeated `Read(n)` calls on the
decrypting reader is the whole decrypted stream, hence identical for both
sequences. -/
theorem read_granularity_independence (cfg : Config) (D : List Nat → List Nat)
    (ct sizes₁ sizes₂ : List Nat) (hseg : 0 < cfg.segmentSize)
    (h₁ : (decryptStream cfg D ct).length ≤ sizes₁.sum)
    (h₂ : (decryptStream cfg D ct).length ≤ sizes₂.sum) :
    readSeq cfg D sizes₁ (newSession ct none) = decryptStream cfg D ct ∧
    readSeq cfg D sizes₁ (newSession ct none) = readSeq cfg D sizes₂ (newSession ct none) := by
  have key : ∀ sizes : List Nat, (decryptStream cfg D ct).length ≤ sizes.sum →
      readSeq cfg D sizes (newSession ct none) = decryptStream cfg D ct := by
    intro sizes hs
    rw [readSeq_pending cfg D hseg sizes _ rfl rfl, pending_newSession,
      List.take_of_length_le hs]
  exact ⟨key sizes₁ h₁, (key sizes₁ h₁).trans (key sizes₂ h₂).symm⟩

/-- Witness for C1: a five-byte stream read in one oversized call and one
byte at a time yields the same bytes, namely the decrypted stream. -/
theorem read_granularity_independence_witness :
    readSeq cfgW (fun b => b) [5] (newSession [10, 20, 30, 40, 50] none)
        = decryptStream cfgW (fun b => b) [10, 20, 30, 40, 50] ∧
    readSeq cfgW (fun b => b) [5] (newSession [10, 20, 30, 40, 50] none)
        = readSeq cfgW (fun b => b) [1, 1, 1, 1, 1] (newSession [10, 20, 30, 40, 50] none) :=
  read_granularity_independence cfgW (fun b => b) [10, 20, 30, 40, 50] [5] [1, 1, 1, 1, 1]
    (by decide) (by decide) (by decide)

/-- Claim C4: key derivation is deterministic and total — for every
identifier the derived key has the fixed length, deriving twice yields
identical keys, and decrypting the same ciphertext with two fresh Sessions
for the same identifier yields identical bytes. -/
theorem key_derivation_deterministic (digest : String → List Nat) (secret : List Nat)
    (L : Nat) (hdig : ∀ s, (digest s).length = L) (hsec : secret.length = L)
    (ident : String) (hI : ident ≠ "") (cfg : Config)
    (D : List Nat → List Nat → List Nat) (sizes ct : List Nat) :
    (deriveKey digest secret ident).length = L ∧
    deriveKey digest secret ident = deriveKey digest secret ident ∧
    readSeq cfg (D (deriveKey digest secret ident)) sizes (newSession ct none)
      = readSeq cfg (D (deriveKey digest secret ident)) sizes (newSession ct none) := by
  refine ⟨?_, rfl, rfl⟩
  unfold deriveKey
  rw [zipXor_length, hdig, hsec, min_self]

/-- Witness for C4 at a concrete digest, secret and identifier. -/
theorem key_derivation_deterministic_witness :
    (deriveKey (fun _ => [7]) [3] "42").length = 1 ∧
    deriveKey (fun _ => [7]) [3] "42" = deriveKey (fun _ => [7]) [3] "42" ∧
    readSeq cfgW ((fun _ b => b) (deriveKey (fun _ => [7]) [3] "42")) [1]
        (newSession [1, 2] none)
      = readSeq cfgW ((fun _ b => b) (deriveKey (fun _ => [7]) [3] "42")) [1]
        (newSession [1, 2] none) :=
  key_derivation_deterministic (fun _ => [7]) [3] 1 (fun _ => rfl) rfl "42" (by decide)
    cfgW (fun _ b => b) [1] [1, 2]

/-- Claim C6: a Session opened over a zero-length underlying byte source
immediately reports clean end-of-stream, delivering no bytes and no error,
for every requested read size. -/
theorem empty_input_eof (cfg : Config) (D : List Nat → List Nat) (n : Nat) :
    read cfg D n (newSession [] none) = .eofClean (newSession [] none) := by
  have hfill : fill cfg D n (newSession [] none) = .filled (newSession [] none) := by
    unfold fill newSession
    rw [fillF.eq_def]
    simp
  unfold read
  rw [hfill]
  simp [newSession]

/-- Claim C7: whenever the underlying byte source reports a read error, the
adapter returns that error verbatim on that same `Read` call (an error
outcome delivers no bytes, so nothing from the failed pull is decrypted or
delivered) and the Session transitions to Closed. -/
theorem source_error_propagation (cfg : Config) (D : List Nat → List Nat) (n : Nat)
    (s : Session) (e : String) (hseg : 0 < cfg.segmentSize) (hclosed : s.closed = false)
    (hdata : s.srcData = []) (herr : s.srcErr = some e) (hn : s.carry.length < n) :
    read cfg D n s = .err (.sourceErr e) (close s) ∧ (close s).closed = true := by
  have hfill : fill cfg D n s = .srcError e (close s) := by
    rw [fill_eq cfg D n s hseg, if_neg (not_le.mpr hn), hdata, herr]
  refine ⟨?_, rfl⟩
  unfold read
  rw [hclosed, hfill]
  simp

/-- Witness for C7: a drained source that reports an error makes the next
read fail with exactly that error and closes the Session. -/
theorem source_error_propagation_witness :
    read cfgW (fun b => b) 1 ⟨[], some "boom", 0, [], false⟩
        = .err (.sourceErr "boom") (close ⟨[], some "boom", 0, [], false⟩) ∧
    (close (⟨[], some "boom", 0, [], false⟩ : Session)).closed = true :=
  source_error_propagation cfgW (fun b => b) 1 ⟨[], some "boom", 0, [], false⟩ "boom"
    (by decide) rfl rfl rfl (by decide)

/-- Claim C8: after the caller explicitly closes the Session, every
subsequent read attempt fails with the distinct UseAfterClose condition and
delivers no bytes (in particular no stale carry-over bytes); the state
returned is the closed Session itself, so all later reads fail the same
way. -/
theorem close_semantics (cfg : Config) (D : List Nat → List Nat) (n : Nat) (s : Session) :
    read cfg D n (close s) = .err .useAfterClose (close s) ∧
    (readD cfg D n (close s)).1 = [] := by
  have h : read cfg D n (close s) = .err .useAfterClose (close s) := by
    unfold read close
    simp
  exact ⟨h, by unfold readD; rw [h]⟩

/-- Claim C3: segment classification — the bytes a full read of the adapter
delivers are exactly the input segments mapped by the rule "decrypt iff the
zero-based index modulo the period equals the residue AND the byte length is
an exact multiple of the block size, else passthrough"; and for a stream of
`k` full segments plus a short tail of `r` bytes at a decrypt-eligible index
whose length is not a block multiple, the tail is returned byte-identical
while the prior segments are processed normally. -/
theorem segment_classification (cfg : Config) (D : List Nat → List Nat)
    (ct : List Nat) (n : Nat) (hseg : 0 < cfg.segmentSize) (hblk : 0 < cfg.blockSize)
    (hiv : cfg.iv.length = cfg.blockSize) (hD : ∀ b, (D b).length = b.length)
    (hn : ct.length ≤ n) :
    (readD cfg D n (newSession ct none)).1
      = (((chunksOf cfg.segmentSize ct).enumFrom 0).map fun p =>
          if p.1 % cfg.period = cfg.residue ∧ p.2.length % cfg.blockSize = 0
          then decryptSegment cfg D p.2 else p.2).flatten ∧
    (∀ k r, ct.length = cfg.segmentSize * k + r → 0 < r → r < cfg.segmentSize →
      k % cfg.period = cfg.residue → r % cfg.blockSize ≠ 0 →
      ((readD cfg D n (newSession ct none)).1).drop (cfg.segmentSize * k)
        = ct.drop (cfg.segmentSize * k)) := by
  have hout : (readD cfg D n (newSession ct none)).1 = decryptStream cfg D ct := by
    obtain ⟨h1, _, _, _⟩ := readD_spec cfg D hseg n (newSession ct none) rfl rfl
    rw [h1, pending_newSession, List.take_of_length_le]
    rw [decryptStream_length cfg D hseg hblk hiv hD]
    exact hn
  constructor
  · rw [hout]
    rfl
  · intro k r hlen hr1 hr2 _ hr3
    rw [hout]
    exact decryptFrom_tail cfg D hseg hblk hiv hD k ct 0 r hlen hr1 hr2 hr3

/-- Witness for C3: a 13-byte stream over 4-byte segments — three full
segments plus a one-byte tail at index 3, which is decrypt-eligible (3 mod 3
= 0) but not a multiple of the 2-byte block — is delivered per the rule, and
its short tail is returned byte-identical. -/
theorem segment_classification_witness :
    (readD cfgW2 (fun b => b) 13
        (newSession [1, 2, 3, 4, 5, 6, 7, 8, 9, 10, 11, 12, 13] none)).1
      = (((chunksOf cfgW2.segmentSize [1, 2, 3, 4, 5, 6, 7, 8, 9, 10, 11, 12, 13]).enumFrom
          0).map fun p =>
          if p.1 % cfgW2.period = cfgW2.residue ∧ p.2.length % cfgW2.blockSize = 0
          then decryptSegment cfgW2 (fun b => b) p.2 else p.2).flatten ∧
    ((readD cfgW2 (fun b => b) 13
        (newSession [1, 2, 3, 4, 5, 6, 7, 8, 9, 10, 11, 12, 13] none)).1).drop
        (cfgW2.segmentSize * 3)
      = ([1, 2, 3, 4, 5, 6, 7, 8, 9, 10, 11, 12, 13] : List Nat).drop
        (cfgW2.segmentSize * 3) := by
  obtain ⟨h1, h2⟩ := segment_classification cfgW2 (fun b => b)
    [1, 2, 3, 4, 5, 6, 7, 8, 9, 10, 11, 12, 13] 13 (by decide) (by decide) rfl
    (fun b => rfl) (by decide)
  exact ⟨h1, h2 3 1 (by decide) (by decide) (by decide) (by decide) (by decide)⟩

/-- Claim C5: order and passthrough preservation — the output has exactly
the input's length; every passthrough segment (one failing the decryption
rule) is returned byte-identical at its original byte position; and every
decrypted segment is replaced in place by its decryption, one byte for one
byte. -/
theorem order_and_passthrough (cfg : Config) (D : List Nat → List Nat) (ct : List Nat)
    (hseg : 0 < cfg.segmentSize) (hblk : 0 < cfg.blockSize)
    (hiv : cfg.iv.length = cfg.blockSize) (hD : ∀ b, (D b).length = b.length) :
    (decryptStream cfg D ct).length = ct.length ∧
    (∀ i, ¬ (i % cfg.period = cfg.residue ∧
        ((ct.drop (cfg.segmentSize * i)).take cfg.segmentSize).length % cfg.blockSize = 0) →
      ((decryptStream cfg D ct).drop (cfg.segmentSize * i)).take cfg.segmentSize
        = (ct.drop (cfg.segmentSize * i)).take cfg.segmentSize) ∧
    (∀ i, (i % cfg.period = cfg.residue ∧
        ((ct.drop (cfg.segmentSize * i)).take cfg.segmentSize).length % cfg.blockSize = 0) →
      ((decryptStream cfg D ct).drop (cfg.segmentSize * i)).take cfg.segmentSize
        = decryptSegment cfg D ((ct.drop (cfg.segmentSize * i)).take cfg.segmentSize)) := by
  refine ⟨decryptStream_length cfg D hseg hblk hiv hD ct, ?_, ?_⟩
  · intro i hno
    have h := decryptFrom_segment_at cfg D hseg hblk hiv hD i ct 0
    rw [Nat.zero_add] at h
    unfold decryptStream
    rw [h]
    unfold processSegment
    rw [if_neg hno]
  · intro i hyes
    have h := decryptFrom_segment_at cfg D hseg hblk hiv hD i ct 0
    rw [Nat.zero_add] at h
    unfold decryptStream
    rw [h]
    unfold processSegment
    rw [if_pos hyes]

/-- Witness for C5: length preservation and positional passthrough of the
segment at index 1 (not decrypt-eligible under period 3, residue 0) on a
concrete five-byte stream. -/
theorem order_and_passthrough_witness :
    (decryptStream cfgW (fun b => b) [10, 20, 30, 40, 50]).length = 5 ∧
    ((decryptStream cfgW (fun b => b) [10, 20, 30, 40, 50]).drop
        (cfgW.segmentSize * 1)).take cfgW.segmentSize
      = (([10, 20, 30, 40, 50] : List Nat).drop (cfgW.segmentSize * 1)).take
          cfgW.segmentSize := by
  obtain ⟨h1, h2, _⟩ := order_and_passthrough cfgW (fun b => b) [10, 20, 30, 40, 50]
    (by decide) (by decide) rfl (fun b => rfl)
  exact ⟨h1, h2 1 (by decide)⟩

theorem process_enc_roundtrip (cfg : Config) (E D : List Nat → List Nat)
    (hblk : 0 < cfg.blockSize) (hiv : cfg.iv.length = cfg.blockSize)
    (hE : ∀ b, b.length = cfg.blockSize → (E b).length = cfg.blockSize)
    (hDE : ∀ b, b.length = cfg.blockSize → D (E b) = b) (i : Nat) (seg : List Nat) :
    processSegment cfg D i (encSegmentAt cfg E i seg) = seg := by
  unfold encSegmentAt
  by_cases hcond : i % cfg.period = cfg.residue ∧ seg.length % cfg.blockSize = 0
  · rw [if_pos hcond]
    unfold processSegment
    rw [if_pos ⟨hcond.1, by
      rw [encryptSegment_length cfg E hblk hiv hE seg hcond.2]; exact hcond.2⟩]
    exact segment_roundtrip cfg E D hblk hiv hE hDE seg hcond.2
  · rw [if_neg hcond]
    unfold processSegment
    rw [if_neg hcond]

theorem stream_roundtrip (cfg : Config) (E D : List Nat → List Nat)
    (hseg : 0 < cfg.segmentSize) (hblk : 0 < cfg.blockSize)
    (hiv : cfg.iv.length = cfg.blockSize)
    (hE : ∀ b, b.length = cfg.blockSize → (E b).length = cfg.blockSize)
    (hDE : ∀ b, b.length = cfg.blockSize → D (E b) = b) :
    ∀ (pt : List Nat) (i : Nat), decryptFrom cfg D i (encryptFrom cfg E i pt) = pt := by
  have key : ∀ m (pt : List Nat) (i : Nat), pt.length ≤ m →
      decryptFrom cfg D i (encryptFrom cfg E i pt) = pt := by
    intro m
    induction m with
    | zero =>
      intro pt i h
      have hl : pt = [] := List.eq_nil_of_length_eq_zero (Nat.le_zero.mp h)
      subst hl; rfl
    | succ m ih =>
      intro pt i h
      by_cases hl : pt = []
      · subst hl; rfl
      · rw [encryptFrom_cons cfg E hseg i pt hl]
        have hA : (encSegmentAt cfg E i (pt.take cfg.segmentSize)).length
            = (pt.take cfg.segmentSize).length := encSegmentAt_length cfg E hblk hiv hE i _
        have hpt : 0 < pt.length := List.length_pos.mpr hl
        have hAne : encSegmentAt cfg E i (pt.take cfg.segmentSize) ≠ [] := by
          apply List.length_pos.mp
          rw [hA, List.length_take]
          omega
        by_cases hlen : cfg.segmentSize ≤ pt.length
        · have hAfull : (encSegmentAt cfg E i (pt.take cfg.segmentSize)).length
              = cfg.segmentSize := by rw [hA, List.length_take]; omega
          have hnenil : encSegmentAt cfg E i (pt.take cfg.segmentSize)
              ++ encryptFrom cfg E (i + 1) (pt.drop cfg.segmentSize) ≠ [] := by
            intro hh
            exact hAne (List.append_eq_nil.mp hh).1
          rw [decryptFrom_cons cfg D hseg i _ hnenil,
            List.take_append_of_le_length (le_of_eq hAfull.symm),
            List.take_of_length_le (le_of_eq hAfull),
            List.drop_append_of_le_length (le_of_eq hAfull.symm),
            List.drop_eq_nil_of_le (le_of_eq hAfull), List.nil_append,
            ih (pt.drop cfg.segmentSize) (i + 1)
              (by rw [List.length_drop]; omega),
            process_enc_roundtrip cfg E D hblk hiv hE hDE i _,
            List.take_append_drop]
        · have hdrop : pt.drop cfg.segmentSize = [] := List.drop_eq_nil_of_le (by omega)
          rw [hdrop, encryptFrom_nil, List.append_nil,
            decryptFrom_cons cfg D hseg i _ hAne,
            List.take_of_length_le (by rw [hA, List.length_take]; omega),
            List.drop_eq_nil_of_le (by rw [hA, List.length_take]; omega),
            decryptFrom_nil, List.append_nil,
            process_enc_roundtrip cfg E D hblk hiv hE hDE i _,
            List.take_of_length_le (by omega)]
  exact fun pt i => key pt.length pt i (le_refl _)

/-- Claim C2: round-trip — for every plaintext byte sequence and every
non-empty asset identifier, decrypting the output of the reference encoder
(the matching segment-interleaved chained-cipher encoding, keyed by the key
derived from that identifier) with the same identifier returns exactly the
plaintext.  The block cipher pair is any length-preserving inverse pair at
the derived key. -/
theorem round_trip (cfg : Config) (Enc Dec : List Nat → List Nat → List Nat)
    (digest : String → List Nat) (secret : List Nat) (ident : String) (P : List Nat)
    (hI : ident ≠ "") (hseg : 0 < cfg.segmentSize) (hblk : 0 < cfg.blockSize)
    (hiv : cfg.iv.length = cfg.blockSize)
    (hE : ∀ b, b.length = cfg.blockSize →
      (Enc (deriveKey digest secret ident) b).length = cfg.blockSize)
    (hDE : ∀ b, b.length = cfg.blockSize →
      Dec (deriveKey digest secret ident) (Enc (deriveKey digest secret ident) b) = b) :
    decryptStream cfg (Dec (deriveKey digest secret ident))
      (encryptStream cfg (Enc (deriveKey digest secret ident)) P) = P :=
  stream_roundtrip cfg (Enc (deriveKey digest secret ident))
    (Dec (deriveKey digest secret ident)) hseg hblk hiv hE hDE P 0

/-- Witness for C2: a concrete five-byte plaintext round-trips through the
reference encoder and the decrypting stream under a concrete scheme, key
derivation and block-cipher pair. -/
theorem round_trip_witness :
    decryptStream cfgW2 ((fun _ b => b) (deriveKey (fun _ => [7, 7]) [3, 1] "x"))
      (encryptStream cfgW2 ((fun _ b => b) (deriveKey (fun _ => [7, 7]) [3, 1] "x"))
        [1, 2, 3, 4, 5]) = [1, 2, 3, 4, 5] :=
  round_trip cfgW2 (fun _ b => b) (fun _ b => b) (fun _ => [7, 7]) [3, 1] "x"
    [1, 2, 3, 4, 5] (by decide) (by decide) (by decide) rfl (fun _ h => h) (fun _ _ => rfl)

/-- Counterexample to claim C9 as stated: an unmarshal failure whose error
message contains "json: cannot unmarshal array into Go struct field" is
swallowed — `apiDoJSON` returns nil (no error) even though unmarshalling the
response results failed (client.go:173-180). -/
theorem apiDoJSON_swallows_php_array_error :
    apiDoJSON none (.returns (some ⟨200⟩, none)) none
      (some (.other
        "json: cannot unmarshal array into Go struct field SearchResponse.ARTIST"))
      = .returns none := by decide

/-- Claim C9 amended: `apiDoJSON` surfaces every data-path error — a marshal
failure, an `apiDo` failure, a decode failure, or an unmarshal failure — to
its immediate caller, with exactly one deliberate exception: an unmarshal
error whose message contains "json: cannot unmarshal array into Go struct
field" is absorbed and the call reports success.  Equivalently, the call
returns nil iff no step failed or the only failure was such an exempted
unmarshal error. -/
theorem apiDoJSON_error_propagation (marshalErr : Option goError)
    (apiDoRes : goOutcome (Option httpResponse × Option goError))
    (decodeErr unmarshalErr : Option goError) :
    apiDoJSON marshalErr apiDoRes decodeErr unmarshalErr = .returns none ↔
      (marshalErr = none ∧ (∃ r, apiDoRes = .returns (r, none)) ∧ decodeErr = none ∧
        (unmarshalErr = none ∨ ∃ e, unmarshalErr = some e ∧
          stringsContains e.message phpArrayErrPat = true)) := by
  constructor
  · intro h
    unfold apiDoJSON at h
    cases marshalErr with
    | some e => simp at h
    | none =>
      cases apiDoRes with
      | crashes => simp at h
      | returns v =>
        obtain ⟨r, oe⟩ := v
        cases oe with
        | some e => simp at h
        | none =>
          cases decodeErr with
          | some e => simp at h
          | none =>
            cases unmarshalErr with
            | none => exact ⟨rfl, ⟨r, rfl⟩, rfl, Or.inl rfl⟩
            | some e =>
              by_cases hc : stringsContains e.message phpArrayErrPat
              · exact ⟨rfl, ⟨r, rfl⟩, rfl, Or.inr ⟨e, rfl, hc⟩⟩
              · simp [hc] at h
  · rintro ⟨hm, ⟨r, ha⟩, hd, hu⟩
    subst hm
    subst hd
    subst ha
    rcases hu with hu | ⟨e, hue, hc⟩
    · subst hu; rfl
    · subst hue
      unfold apiDoJSON
      simp [hc]

/-- Claim C10 (refuted by the code): when the underlying HTTP client's `Do`
returns a non-nil error — and hence a nil response — `apiDo` does not return
that error: line 150 of client.go evaluates `r.StatusCode` on the nil
response `r` before checking the error, a nil-pointer dereference, so the
call crashes. -/
theorem apiDo_nil_deref :
    apiDo none false (.ok "token") (none, some (.other "network failure"))
      = .crashes := rfl

end GoDeezer
